import Mathlib

/-!
Verification of the quadrature engine of comp-math-lab3 (src/main.rs).

The source manipulates f64 values; the embedding works over an arbitrary
linear ordered field so that every definition is executable (witnesses are
evaluated at rationals).  Machine floats carry no overflow in the paths
modelled here; the arithmetic of the rules, the Runge estimator and the
driver is embedded literally, operation for operation.

Panics in the source are modelled as error values: the Simpson rule
(`solve_simpthon`) returns `Option`, the driver (`start`) returns `Except`.
The interactive validators on epsilon and on the initial number of splits
are embedded as pure functions returning a `Validation` value, mirroring
the closures passed to the prompt library.
-/

namespace CompMathLab3

/-- The `MAX_ITERATIONS` constant from src/main.rs line 11. -/
def MAX_ITERATIONS : Nat := 100000

/-- Rust enum `RectangleMode`. -/
inductive RectangleMode where
  | Left
  | Center
  | Right
  deriving DecidableEq

/-- Rust enum `ComputationMethod`. -/
inductive ComputationMethod where
  | Rectangle (mode : RectangleMode)
  | Trapezoid
  | Sympthonm
  deriving DecidableEq

/-- Rust `Range<f64>` as used by the program: `start..end`. -/
structure FRange (K : Type) where
  start : K
  stop : K
  deriving DecidableEq

/-- Rust struct `Config`. -/
structure Config (K : Type) where
  range : FRange K
  number_of_splits : Nat

variable {K : Type} [LinearOrderedField K]

/-- Implementation of `FloatRangeLength::len` for `Range<f64>`: `self.end - self.start`. -/
def FRange.len (r : FRange K) : K :=
  r.stop - r.start

/-- Function `compute_step_length`: range length divided by the number of splits. -/
def compute_step_length (config : Config K) : K :=
  config.range.len / (config.number_of_splits : K)

/-- Function `solve_rectanlge`: sum over the splits of `height * step_length`, the
sample point depending on the mode. -/
def solve_rectanlge (config : Config K) (mode : RectangleMode)
    (function : K → K) : K :=
  let step_length := compute_step_length config
  let half_step := step_length / 2
  ∑ left_border_multiplier ∈ Finset.range config.number_of_splits,
    (let left_bound := config.range.start + step_length * (left_border_multiplier : K)
     let height : K :=
       match mode with
       | RectangleMode.Left => function left_bound
       | RectangleMode.Center => function (left_bound + half_step)
       | RectangleMode.Right => function (left_bound + step_length)
     height * step_length)

/-- Function `solve_trapezoid`. -/
def solve_trapezoid (config : Config K) (function : K → K) : K :=
  let step_length := compute_step_length config
  let first_point := function config.range.start
  let end_point := function config.range.stop
  let sum_of_intermediate_points :=
    ∑ point_index ∈ Finset.Ico 1 config.number_of_splits,
      function (config.range.start + step_length * (point_index : K))
  step_length / 2 * (first_point + end_point + 2 * sum_of_intermediate_points)

/-- Function `solve_simpthon`; the panic on an odd number of splits is `none`. -/
def solve_simpthon (config : Config K) (function : K → K) : Option K :=
  if config.number_of_splits % 2 ≠ 0 then
    none
  else
    let step_length := compute_step_length config
    let first_point := function config.range.start
    let end_point := function config.range.stop
    let odd_sum :=
      ∑ index ∈ (Finset.Ico 1 config.number_of_splits).filter
          (fun index => ¬ index % 2 = 0),
        function (config.range.start + step_length * (index : K))
    let even_sum :=
      ∑ index ∈ (Finset.Ico 1 config.number_of_splits).filter
          (fun index => index % 2 = 0),
        function (config.range.start + step_length * (index : K))
    some (step_length / 3 * (first_point + 4 * odd_sum + 2 * even_sum + end_point))

/-- Function `compute_integral`: dispatch on the method. -/
def compute_integral (range : FRange K) (number_of_splits : Nat)
    (method : ComputationMethod) (function : K → K) : Option K :=
  let config : Config K := ⟨range, number_of_splits⟩
  match method with
  | ComputationMethod.Rectangle mode => some (solve_rectanlge config mode function)
  | ComputationMethod.Trapezoid => some (solve_trapezoid config function)
  | ComputationMethod.Sympthonm => solve_simpthon config function

/-- Function `runge_rule`: `(half - full) / (2^k - 1)` with `k` the asymptotic order
of the method. -/
def runge_rule (half full : K) (method : ComputationMethod) : K :=
  let k : Nat :=
    match method with
    | ComputationMethod.Rectangle _ | ComputationMethod.Trapezoid => 2
    | ComputationMethod.Sympthonm => 4
  (half - full) / ((2 : K) ^ k - 1)

/-- Outcome of an inquire validator, messages elided. -/
inductive Validation where
  | Valid
  | Invalid
  deriving DecidableEq

/-- The epsilon validator closure from `start` (src/main.rs lines 107-115):
valid exactly when the value is strictly above zero. -/
def epsilon_validator (value : K) : Validation :=
  if 0 < value then Validation.Valid else Validation.Invalid

/-- The initial-splits validator closure from `start` (src/main.rs lines
120-128): invalid exactly when the method is Simpson and the value is odd. -/
def splits_validator (method : ComputationMethod) (value : Nat) : Validation :=
  if method = ComputationMethod.Sympthonm ∧ value % 2 = 1 then
    Validation.Invalid
  else
    Validation.Valid

/-- The two panics reachable from the driver loop: the Simpson parity panic
inside `solve_simpthon`, and the iteration-budget panic after the loop,
which reports the number of splits reached. -/
inductive DriverError where
  | oddSplits
  | maxIterations (number_of_splits : Nat)
  deriving DecidableEq

/-- The loop of `start` (src/main.rs lines 133-155), with the remaining
iteration budget as fuel.  When the fuel runs out the budget panic fires,
carrying the current `number_of_splits` exactly as the panic message does. -/
def startLoop (range : FRange K) (function : K → K)
    (method : ComputationMethod) (epsilon : K) :
    Nat → Nat → Except DriverError (K × Nat)
  | 0, number_of_splits => Except.error (DriverError.maxIterations number_of_splits)
  | fuel + 1, number_of_splits =>
    match compute_integral range number_of_splits method function,
        compute_integral range (number_of_splits * 2) method function with
    | some integral, some double_splitted =>
      let divergence := runge_rule double_splitted integral method
      if divergence < epsilon then
        Except.ok (double_splitted, number_of_splits * 2)
      else
        startLoop range function method epsilon fuel (number_of_splits * 2 * 2)
    | _, _ => Except.error DriverError.oddSplits

/-- The computational core of `start`: the adaptive loop run with the full
iteration budget, from the validated initial number of splits. -/
def start (range : FRange K) (function : K → K) (method : ComputationMethod)
    (epsilon : K) (number_of_splits : Nat) : Except DriverError (K × Nat) :=
  startLoop range function method epsilon MAX_ITERATIONS number_of_splits

end CompMathLab3

namespace CompMathLab3

variable {K : Type} [LinearOrderedField K]

/-- Claim C3: the convergence estimator returns exactly
`(fine - coarse) / (2 ^ k - 1)`, with `k = 2` for every Rectangle mode and
for Trapezoid, and `k = 4` for Simpson. -/
theorem C3_runge_rule_formula (fine coarse : K) :
    (∀ mode, runge_rule fine coarse (ComputationMethod.Rectangle mode) =
      (fine - coarse) / (2 ^ 2 - 1)) ∧
    runge_rule fine coarse ComputationMethod.Trapezoid =
      (fine - coarse) / (2 ^ 2 - 1) ∧
    runge_rule fine coarse ComputationMethod.Sympthonm =
      (fine - coarse) / (2 ^ 4 - 1) := by
  refine ⟨fun mode => rfl, rfl, rfl⟩

/-- Claim C2, counterexample: the splits validator accepts the value 0, for
Trapezoid and even for Simpson (0 is even), so `initial_splits = 0` is not
rejected at the calling boundary. -/
theorem C2_counterexample :
    splits_validator ComputationMethod.Trapezoid 0 = Validation.Valid ∧
    splits_validator ComputationMethod.Sympthonm 0 = Validation.Valid := by
  exact ⟨rfl, rfl⟩

/-- Claim C2, amended: the boundary validators reject exactly epsilon ≤ 0
and the Simpson-with-odd-splits combination; an initial splits value of 0
passes the splits validator for every method (negative values are not
representable in the unsigned split type). -/
theorem C2_amended_boundary_validation (epsilon : K)
    (method : ComputationMethod) (value : Nat) :
    (epsilon_validator epsilon = Validation.Invalid ↔ epsilon ≤ 0) ∧
    (splits_validator method value = Validation.Invalid ↔
      method = ComputationMethod.Sympthonm ∧ value % 2 = 1) ∧
    splits_validator method 0 = Validation.Valid := by
  refine ⟨?_, ?_, ?_⟩
  · unfold epsilon_validator
    split_ifs with h
    · constructor
      · intro hc; exact absurd hc (by decide)
      · intro hle; exact absurd h (not_lt.mpr hle)
    · simp [le_of_not_lt h]
  · unfold splits_validator
    split_ifs with h
    · simp [h]
    · simp [h]
  · unfold splits_validator
    simp

/-- Claim C10: the splits validator accepts 0 for every method, and with 0
splits the step-length computation divides the range length by zero. -/
theorem C10_zero_splits_accepted :
    (∀ method, splits_validator method 0 = Validation.Valid) ∧
    (∀ s e : K, compute_step_length ⟨⟨s, e⟩, 0⟩ = (e - s) / 0) := by
  constructor
  · intro method
    unfold splits_validator
    simp
  · intro s e
    simp [compute_step_length, FRange.len]

end CompMathLab3

namespace CompMathLab3

variable {K : Type} [LinearOrderedField K]

/-- Claim C1: one driver iteration computes the rule at the current and at
the doubled split count, takes the Runge estimate, returns the finer value
with the doubled count when the estimate is strictly below epsilon, and
otherwise continues with the split count quadrupled. -/
theorem C1_driver_transition (range : FRange K) (function : K → K)
    (method : ComputationMethod) (epsilon : K) (fuel n : Nat)
    (integral double_splitted : K)
    (h1 : compute_integral range n method function = some integral)
    (h2 : compute_integral range (n * 2) method function = some double_splitted) :
    (runge_rule double_splitted integral method < epsilon →
      startLoop range function method epsilon (fuel + 1) n =
        Except.ok (double_splitted, 2 * n)) ∧
    (¬ runge_rule double_splitted integral method < epsilon →
      startLoop range function method epsilon (fuel + 1) n =
        startLoop range function method epsilon fuel (4 * n)) := by
  constructor
  · intro hlt
    simp only [startLoop, h1, h2]
    rw [if_pos hlt, Nat.mul_comm]
  · intro hge
    simp only [startLoop, h1, h2]
    rw [if_neg hge, show n * 2 * 2 = 4 * n by ring]

/-- Witness for C1 at a concrete input over the rationals. -/
theorem C1_witness :
    (compute_integral (⟨0, 1⟩ : FRange ℚ) 1 ComputationMethod.Trapezoid
        (fun _ => 1) = some 1) ∧
    (compute_integral (⟨0, 1⟩ : FRange ℚ) (1 * 2) ComputationMethod.Trapezoid
        (fun _ => 1) = some 1) ∧
    ((runge_rule (1 : ℚ) 1 ComputationMethod.Trapezoid < 1 →
        startLoop (⟨0, 1⟩ : FRange ℚ) (fun _ => 1) ComputationMethod.Trapezoid 1
          (0 + 1) 1 = Except.ok (1, 2 * 1)) ∧
      (¬ runge_rule (1 : ℚ) 1 ComputationMethod.Trapezoid < 1 →
        startLoop (⟨0, 1⟩ : FRange ℚ) (fun _ => 1) ComputationMethod.Trapezoid 1
          (0 + 1) 1 =
          startLoop (⟨0, 1⟩ : FRange ℚ) (fun _ => 1) ComputationMethod.Trapezoid 1
            0 (4 * 1))) := by
  have ha : compute_integral (⟨0, 1⟩ : FRange ℚ) 1 ComputationMethod.Trapezoid
      (fun _ => 1) = some 1 := by
    norm_num [compute_integral, solve_trapezoid, compute_step_length, FRange.len]
  have hb : compute_integral (⟨0, 1⟩ : FRange ℚ) (1 * 2) ComputationMethod.Trapezoid
      (fun _ => 1) = some 1 := by
    norm_num [compute_integral, solve_trapezoid, compute_step_length, FRange.len,
      Finset.sum_Ico_eq_sum_range]
  exact ⟨ha, hb, C1_driver_transition ⟨0, 1⟩ (fun _ => 1) ComputationMethod.Trapezoid
    1 0 1 1 1 ha hb⟩

/-- Reindex a sum over the interior indices `1 ≤ i < M + 1` as a sum over
`j < M` with `i = j + 1`. -/
theorem sum_interior_shift (g : K → K) (c h : K) (M : Nat) :
    ∑ i ∈ Finset.Ico 1 (M + 1), g (c + h * (i : K)) =
      ∑ j ∈ Finset.range M, g (c + h * ((j : K) + 1)) := by
  rw [Finset.sum_Ico_eq_sum_range]
  simp only [Nat.add_sub_cancel]
  apply Finset.sum_congr rfl
  intro j hj
  push_cast
  ring_nf

end CompMathLab3

namespace CompMathLab3

variable {K : Type} [LinearOrderedField K]

/-- Claim C9: for every interval, every `N ≥ 1` and every function, the
trapezoid rule is the arithmetic mean of the left and right rectangle
rules. -/
theorem C9_trapezoid_is_mean_of_rectangles (s e : K) (N : Nat) (f : K → K)
    (hN : 1 ≤ N) :
    solve_trapezoid ⟨⟨s, e⟩, N⟩ f =
      (solve_rectanlge ⟨⟨s, e⟩, N⟩ RectangleMode.Left f +
        solve_rectanlge ⟨⟨s, e⟩, N⟩ RectangleMode.Right f) / 2 := by
  obtain ⟨M, rfl⟩ : ∃ M, N = M + 1 := ⟨N - 1, (Nat.succ_pred_eq_of_pos hN).symm⟩
  have hMK : ((M : K) + 1) ≠ 0 := by positivity
  simp only [solve_trapezoid, solve_rectanlge, compute_step_length, FRange.len]
  push_cast
  rw [sum_interior_shift, Finset.sum_range_succ', Finset.sum_range_succ]
  push_cast
  have hpoint : ∀ i : Nat,
      s + (e - s) / ((M : K) + 1) * (i : K) + (e - s) / ((M : K) + 1) =
        s + (e - s) / ((M : K) + 1) * ((i : K) + 1) := by
    intro i; ring
  simp only [hpoint, mul_zero, add_zero]
  have hlast : s + (e - s) / ((M : K) + 1) * ((M : K) + 1) = e := by
    field_simp
  rw [hlast]
  simp only [← Finset.sum_mul]
  ring

end CompMathLab3

namespace CompMathLab3

variable {K : Type} [LinearOrderedField K]

/-- The even interior indices of `Ico 1 N` are the doubles of `Ico 1 ((N+1)/2)`. -/
theorem filter_even_Ico_eq_image (N : Nat) :
    (Finset.Ico 1 N).filter (fun i => i % 2 = 0) =
      (Finset.Ico 1 ((N + 1) / 2)).image (fun j => 2 * j) := by
  ext i
  simp only [Finset.mem_filter, Finset.mem_Ico, Finset.mem_image]
  constructor
  · rintro ⟨⟨h1, h2⟩, h3⟩
    exact ⟨i / 2, ⟨by omega, by omega⟩, by omega⟩
  · rintro ⟨j, ⟨hj1, hj2⟩, rfl⟩
    exact ⟨⟨by omega, by omega⟩, by omega⟩

/-- The odd interior indices of `Ico 1 N` are the odd numbers below `N`. -/
theorem filter_odd_Ico_eq_image (N : Nat) :
    (Finset.Ico 1 N).filter (fun i => ¬ i % 2 = 0) =
      (Finset.range (N / 2)).image (fun j => 2 * j + 1) := by
  ext i
  simp only [Finset.mem_filter, Finset.mem_Ico, Finset.mem_image, Finset.mem_range]
  constructor
  · rintro ⟨⟨h1, h2⟩, h3⟩
    exact ⟨i / 2, by omega, by omega⟩
  · rintro ⟨j, hj, rfl⟩
    exact ⟨⟨by omega, by omega⟩, by omega⟩

/-- Number of even interior indices. -/
theorem card_filter_even_Ico (N : Nat) :
    ((Finset.Ico 1 N).filter (fun i => i % 2 = 0)).card = (N + 1) / 2 - 1 := by
  rw [filter_even_Ico_eq_image,
    Finset.card_image_of_injective _ (fun a b hab => by omega)]
  simp [Nat.card_Ico]

/-- Number of odd interior indices. -/
theorem card_filter_odd_Ico (N : Nat) :
    ((Finset.Ico 1 N).filter (fun i => ¬ i % 2 = 0)).card = N / 2 := by
  rw [filter_odd_Ico_eq_image,
    Finset.card_image_of_injective _ (fun a b hab => by omega)]
  simp

/-- Claim C6: for a constant function, every rectangle mode, the trapezoid
rule and (for even splits) the Simpson rule return exactly `c * (e - s)`. -/
theorem C6_constant_function_exact (c s e : K) (N : Nat) (hN : 1 ≤ N) :
    (∀ mode, solve_rectanlge ⟨⟨s, e⟩, N⟩ mode (fun _ => c) = c * (e - s)) ∧
    solve_trapezoid ⟨⟨s, e⟩, N⟩ (fun _ => c) = c * (e - s) ∧
    (N % 2 = 0 → solve_simpthon ⟨⟨s, e⟩, N⟩ (fun _ => c) = some (c * (e - s))) := by
  have hNK : (N : K) ≠ 0 := Nat.cast_ne_zero.mpr (by omega)
  refine ⟨?_, ?_, ?_⟩
  · intro mode
    cases mode <;>
      · simp only [solve_rectanlge, compute_step_length, FRange.len]
        rw [Finset.sum_const, Finset.card_range, nsmul_eq_mul]
        field_simp
  · simp only [solve_trapezoid, compute_step_length, FRange.len]
    rw [Finset.sum_const, Nat.card_Ico, nsmul_eq_mul, Nat.cast_sub hN,
      Nat.cast_one]
    field_simp
    ring
  · intro hpar
    obtain ⟨m, rfl⟩ : ∃ m, N = 2 * m := ⟨N / 2, by omega⟩
    have hm1 : 1 ≤ m := by omega
    have hmK : (m : K) ≠ 0 := Nat.cast_ne_zero.mpr (by omega)
    simp only [solve_simpthon, compute_step_length, FRange.len]
    rw [if_neg (by omega)]
    rw [Finset.sum_const, Finset.sum_const, card_filter_even_Ico,
      card_filter_odd_Ico]
    rw [show (2 * m + 1) / 2 - 1 = m - 1 by omega, show 2 * m / 2 = m by omega]
    rw [nsmul_eq_mul, nsmul_eq_mul, Nat.cast_sub hm1, Nat.cast_one]
    push_cast
    congr 1
    field_simp
    ring

end CompMathLab3

namespace CompMathLab3

variable {K : Type} [LinearOrderedField K]

/-- Claim C4: for every interval, every even `N ≥ 2` and every function,
the Simpson rule returns `h/3 * (f s + 4 * (sum at odd interior indices) +
2 * (sum at even interior indices) + f e)` with `h = (e - s) / N` and the
interior point at index `i` equal to `s + i * h`. -/
theorem C4_simpson_formula (s e : K) (N : Nat) (f : K → K)
    (_hN2 : 2 ≤ N) (hpar : N % 2 = 0) :
    solve_simpthon ⟨⟨s, e⟩, N⟩ f =
      some ((e - s) / (N : K) / 3 *
        (f s +
          4 * ∑ i ∈ (Finset.Ico 1 N).filter (fun i => Odd i),
            f (s + (i : K) * ((e - s) / (N : K))) +
          2 * ∑ i ∈ (Finset.Ico 1 N).filter (fun i => Even i),
            f (s + (i : K) * ((e - s) / (N : K))) +
          f e)) := by
  have hodd : (Finset.Ico 1 N).filter (fun i => Odd i) =
      (Finset.Ico 1 N).filter (fun i => ¬ i % 2 = 0) := by
    apply Finset.filter_congr
    intro i _
    rw [Nat.odd_iff]
    omega
  have heven : (Finset.Ico 1 N).filter (fun i => Even i) =
      (Finset.Ico 1 N).filter (fun i => i % 2 = 0) := by
    apply Finset.filter_congr
    intro i _
    rw [Nat.even_iff]
  have hpt : ∀ S : Finset Nat,
      ∑ i ∈ S, f (s + (i : K) * ((e - s) / (N : K))) =
        ∑ i ∈ S, f (s + (e - s) / (N : K) * (i : K)) := by
    intro S
    apply Finset.sum_congr rfl
    intro i _
    rw [mul_comm]
  simp only [solve_simpthon, compute_step_length, FRange.len]
  rw [if_neg (by omega)]
  rw [hodd, heven, hpt, hpt]

/-- Witness for C4 at a concrete even split count over the rationals. -/
theorem C4_witness :
    2 ≤ 2 ∧ 2 % 2 = 0 ∧
    solve_simpthon (⟨⟨0, 1⟩, 2⟩ : Config ℚ) (fun x => x) =
      some ((1 - 0) / (2 : ℚ) / 3 *
        ((fun x : ℚ => x) 0 +
          4 * ∑ i ∈ (Finset.Ico (1 : Nat) 2).filter (fun i => Odd i),
            (fun x : ℚ => x) (0 + (i : ℚ) * ((1 - 0) / (2 : ℚ))) +
          2 * ∑ i ∈ (Finset.Ico (1 : Nat) 2).filter (fun i => Even i),
            (fun x : ℚ => x) (0 + (i : ℚ) * ((1 - 0) / (2 : ℚ))) +
          (fun x : ℚ => x) 1)) :=
  ⟨by norm_num, by norm_num,
    C4_simpson_formula 0 1 2 (fun x => x) (by norm_num) (by norm_num)⟩

/-- Witness for C6 at a concrete input over the rationals. -/
theorem C6_witness :
    1 ≤ 2 ∧
    ((∀ mode, solve_rectanlge (⟨⟨0, 1⟩, 2⟩ : Config ℚ) mode (fun _ => 3) =
        3 * (1 - 0)) ∧
      solve_trapezoid (⟨⟨0, 1⟩, 2⟩ : Config ℚ) (fun _ => 3) = 3 * (1 - 0) ∧
      (2 % 2 = 0 →
        solve_simpthon (⟨⟨0, 1⟩, 2⟩ : Config ℚ) (fun _ => 3) =
          some (3 * (1 - 0)))) :=
  ⟨by norm_num, C6_constant_function_exact 3 0 1 2 (by norm_num)⟩

/-- Witness for C9 at a concrete input over the rationals. -/
theorem C9_witness :
    1 ≤ 1 ∧
    solve_trapezoid (⟨⟨0, 1⟩, 1⟩ : Config ℚ) (fun x => x) =
      (solve_rectanlge (⟨⟨0, 1⟩, 1⟩ : Config ℚ) RectangleMode.Left (fun x => x) +
        solve_rectanlge (⟨⟨0, 1⟩, 1⟩ : Config ℚ) RectangleMode.Right
          (fun x => x)) / 2 :=
  ⟨le_refl 1, C9_trapezoid_is_mean_of_rectangles 0 1 1 (fun x => x) (le_refl 1)⟩

end CompMathLab3

namespace CompMathLab3

variable {K : Type} [LinearOrderedField K]

/-- When the method is Simpson only an even split count is required for the
dispatch to produce a value; the other methods always produce one. -/
theorem compute_integral_isSome (range : FRange K) (n : Nat)
    (method : ComputationMethod) (f : K → K)
    (h : method = ComputationMethod.Sympthonm → n % 2 = 0) :
    ∃ a, compute_integral range n method f = some a := by
  cases method with
  | Rectangle mode => exact ⟨_, rfl⟩
  | Trapezoid => exact ⟨_, rfl⟩
  | Sympthonm =>
    simp only [compute_integral, solve_simpthon]
    rw [if_neg (by simp [h rfl])]
    exact ⟨_, rfl⟩

/-- Parity invariant of the loop: from an even split count the Simpson
parity panic can never fire, whatever the fuel. -/
theorem startLoop_even_no_oddSplits (range : FRange K) (f : K → K)
    (method : ComputationMethod) (epsilon : K) :
    ∀ fuel n, n % 2 = 0 →
      startLoop range f method epsilon fuel n ≠ Except.error DriverError.oddSplits := by
  intro fuel
  induction fuel with
  | zero =>
    intro n hn
    simp [startLoop]
  | succ fuel ih =>
    intro n hn
    obtain ⟨a, ha⟩ := compute_integral_isSome range n method f (fun _ => hn)
    obtain ⟨b, hb⟩ := compute_integral_isSome range (n * 2) method f (fun _ => by omega)
    simp only [startLoop, ha, hb]
    split_ifs with hlt
    · simp
    · exact ih (n * 2 * 2) (by omega)

/-- Claim C8: if the initial split count is even then every split count the
driver passes to a rule stays even (at iteration `j` the rules run at
`4 ^ j * n0` and at its double), and the Simpson parity panic is
unreachable for the whole run. -/
theorem C8_even_splits_unreachable_panic (range : FRange K) (f : K → K)
    (method : ComputationMethod) (epsilon : K) (n0 : Nat) (h : n0 % 2 = 0) :
    (∀ j, (4 ^ j * n0) % 2 = 0 ∧ (4 ^ j * n0 * 2) % 2 = 0) ∧
    start range f method epsilon n0 ≠ Except.error DriverError.oddSplits := by
  constructor
  · intro j
    have hdvd : 2 ∣ 4 ^ j * n0 := Dvd.dvd.mul_left (by omega) (4 ^ j)
    constructor
    · omega
    · omega
  · exact startLoop_even_no_oddSplits range f method epsilon MAX_ITERATIONS n0 h

/-- Witness for C8 at a concrete input over the rationals. -/
theorem C8_witness :
    2 % 2 = 0 ∧
    ((∀ j, (4 ^ j * 2) % 2 = 0 ∧ (4 ^ j * 2 * 2) % 2 = 0) ∧
      start (⟨0, 1⟩ : FRange ℚ) (fun _ => 0) ComputationMethod.Sympthonm 1 2 ≠
        Except.error DriverError.oddSplits) :=
  ⟨rfl, C8_even_splits_unreachable_panic ⟨0, 1⟩ (fun _ => 0)
    ComputationMethod.Sympthonm 1 2 rfl⟩

/-- If no iteration within the fuel budget converges, the loop exhausts the
budget and fails with the split count reached, `4 ^ fuel` times the initial
count. -/
theorem startLoop_no_convergence (range : FRange K) (f : K → K)
    (method : ComputationMethod) (epsilon : K) :
    ∀ fuel n, (method = ComputationMethod.Sympthonm → n % 2 = 0) →
      (∀ j, j < fuel → ∀ a b,
        compute_integral range (4 ^ j * n) method f = some a →
        compute_integral range (4 ^ j * n * 2) method f = some b →
        ¬ runge_rule b a method < epsilon) →
      startLoop range f method epsilon fuel n =
        Except.error (DriverError.maxIterations (4 ^ fuel * n)) := by
  intro fuel
  induction fuel with
  | zero =>
    intro n hn hnc
    simp [startLoop]
  | succ fuel ih =>
    intro n hn hnc
    obtain ⟨a, ha⟩ := compute_integral_isSome range n method f hn
    obtain ⟨b, hb⟩ := compute_integral_isSome range (n * 2) method f (fun _ => by omega)
    simp only [startLoop, ha, hb]
    have h0 : ¬ runge_rule b a method < epsilon := by
      apply hnc 0 (by omega) a b
      · simpa using ha
      · simpa using hb
    rw [if_neg h0]
    have hnc2 : ∀ j, j < fuel → ∀ a2 b2,
        compute_integral range (4 ^ j * (n * 2 * 2)) method f = some a2 →
        compute_integral range (4 ^ j * (n * 2 * 2) * 2) method f = some b2 →
        ¬ runge_rule b2 a2 method < epsilon := by
      intro j hj a2 b2 ha2 hb2
      rw [show 4 ^ j * (n * 2 * 2) = 4 ^ (j + 1) * n by ring] at ha2
      rw [show 4 ^ j * (n * 2 * 2) * 2 = 4 ^ (j + 1) * n * 2 by ring] at hb2
      exact hnc (j + 1) (by omega) a2 b2 ha2 hb2
    rw [ih (n * 2 * 2) (fun _ => by omega) hnc2]
    congr 2
    ring

/-- Claim C5: the adaptive driver performs at most `MAX_ITERATIONS`
iterations; when no iteration converges within that budget it fails with
the budget-exhaustion error carrying the split count reached, rather than
looping forever or returning a partial result. -/
theorem C5_iteration_budget (range : FRange K) (f : K → K)
    (method : ComputationMethod) (epsilon : K) (n0 : Nat)
    (hpar : method = ComputationMethod.Sympthonm → n0 % 2 = 0)
    (hnc : ∀ j, j < MAX_ITERATIONS → ∀ a b,
      compute_integral range (4 ^ j * n0) method f = some a →
      compute_integral range (4 ^ j * n0 * 2) method f = some b →
      ¬ runge_rule b a method < epsilon) :
    start range f method epsilon n0 =
      Except.error (DriverError.maxIterations (4 ^ MAX_ITERATIONS * n0)) :=
  startLoop_no_convergence range f method epsilon MAX_ITERATIONS n0 hpar hnc

/-- The trapezoid rule on the identically-zero function returns zero for
every split count. -/
theorem compute_integral_zero_fun (range : FRange K) (n : Nat) :
    compute_integral range n ComputationMethod.Trapezoid (fun _ => (0 : K)) =
      some 0 := by
  simp [compute_integral, solve_trapezoid]

/-- Witness for C5: the zero function with epsilon zero never satisfies the
strict convergence test, so the run exhausts the whole budget. -/
theorem C5_witness :
    ((ComputationMethod.Trapezoid = ComputationMethod.Sympthonm → 1 % 2 = 0) ∧
      (∀ j, j < MAX_ITERATIONS → ∀ a b : ℚ,
        compute_integral (⟨0, 1⟩ : FRange ℚ) (4 ^ j * 1)
          ComputationMethod.Trapezoid (fun _ => 0) = some a →
        compute_integral (⟨0, 1⟩ : FRange ℚ) (4 ^ j * 1 * 2)
          ComputationMethod.Trapezoid (fun _ => 0) = some b →
        ¬ runge_rule b a ComputationMethod.Trapezoid < 0)) ∧
    start (⟨0, 1⟩ : FRange ℚ) (fun _ => 0) ComputationMethod.Trapezoid 0 1 =
      Except.error (DriverError.maxIterations (4 ^ MAX_ITERATIONS * 1)) := by
  have hpar : ComputationMethod.Trapezoid = ComputationMethod.Sympthonm →
      1 % 2 = 0 := fun hc => absurd hc (by decide)
  have hnc : ∀ j, j < MAX_ITERATIONS → ∀ a b : ℚ,
      compute_integral (⟨0, 1⟩ : FRange ℚ) (4 ^ j * 1)
        ComputationMethod.Trapezoid (fun _ => 0) = some a →
      compute_integral (⟨0, 1⟩ : FRange ℚ) (4 ^ j * 1 * 2)
        ComputationMethod.Trapezoid (fun _ => 0) = some b →
      ¬ runge_rule b a ComputationMethod.Trapezoid < 0 := by
    intro j hj a b ha hb
    rw [compute_integral_zero_fun] at ha hb
    have ha' : a = 0 := by injection ha with h1; exact h1.symm
    have hb' : b = 0 := by injection hb with h1; exact h1.symm
    subst ha'
    subst hb'
    simp [runge_rule]
  exact ⟨⟨hpar, hnc⟩, C5_iteration_budget ⟨0, 1⟩ (fun _ => 0)
    ComputationMethod.Trapezoid 0 1 hpar hnc⟩

end CompMathLab3

namespace CompMathLab3

variable {K : Type} [LinearOrderedField K]

/-- Reflecting the interior indices `1 ≤ i < N` by `i ↦ N - i` permutes
them. -/
theorem sum_Ico_reflect_interior (g : Nat → K) (N : Nat) :
    ∑ i ∈ Finset.Ico 1 N, g (N - i) = ∑ i ∈ Finset.Ico 1 N, g i := by
  rw [Finset.sum_Ico_reflect g 1 (Nat.le_succ N)]
  have h1 : N + 1 - N = 1 := by omega
  have h2 : N + 1 - 1 = N := by omega
  rw [h1, h2]

/-- For even `N`, reflection by `i ↦ N - i` permutes the odd interior
indices. -/
theorem sum_Ico_filter_odd_reflect (g : Nat → K) (N : Nat) (hN : N % 2 = 0) :
    ∑ i ∈ (Finset.Ico 1 N).filter (fun i => ¬ i % 2 = 0), g (N - i) =
      ∑ i ∈ (Finset.Ico 1 N).filter (fun i => ¬ i % 2 = 0), g i := by
  refine Finset.sum_nbij' (fun i => N - i) (fun i => N - i) ?_ ?_ ?_ ?_ ?_
  · intro a ha
    simp only [Finset.mem_filter, Finset.mem_Ico] at ha ⊢
    omega
  · intro a ha
    simp only [Finset.mem_filter, Finset.mem_Ico] at ha ⊢
    omega
  · intro a ha
    simp only [Finset.mem_filter, Finset.mem_Ico] at ha
    dsimp only
    omega
  · intro a ha
    simp only [Finset.mem_filter, Finset.mem_Ico] at ha
    dsimp only
    omega
  · intro a ha
    rfl

/-- For even `N`, reflection by `i ↦ N - i` permutes the even interior
indices. -/
theorem sum_Ico_filter_even_reflect (g : Nat → K) (N : Nat) (hN : N % 2 = 0) :
    ∑ i ∈ (Finset.Ico 1 N).filter (fun i => i % 2 = 0), g (N - i) =
      ∑ i ∈ (Finset.Ico 1 N).filter (fun i => i % 2 = 0), g i := by
  refine Finset.sum_nbij' (fun i => N - i) (fun i => N - i) ?_ ?_ ?_ ?_ ?_
  · intro a ha
    simp only [Finset.mem_filter, Finset.mem_Ico] at ha ⊢
    omega
  · intro a ha
    simp only [Finset.mem_filter, Finset.mem_Ico] at ha ⊢
    omega
  · intro a ha
    simp only [Finset.mem_filter, Finset.mem_Ico] at ha
    dsimp only
    omega
  · intro a ha
    simp only [Finset.mem_filter, Finset.mem_Ico] at ha
    dsimp only
    omega
  · intro a ha
    rfl

end CompMathLab3

namespace CompMathLab3

variable {K : Type} [LinearOrderedField K]

/-- The trapezoid rule on the reversed interval negates. -/
theorem solve_trapezoid_reversed (s e : K) (N : Nat) (f : K → K)
    (hN : 1 ≤ N) :
    solve_trapezoid ⟨⟨e, s⟩, N⟩ f = - solve_trapezoid ⟨⟨s, e⟩, N⟩ f := by
  have hNK : (N : K) ≠ 0 := Nat.cast_ne_zero.mpr (by omega)
  simp only [solve_trapezoid, compute_step_length, FRange.len]
  have hpt : ∀ i ∈ Finset.Ico 1 N,
      f (e + (s - e) / (N : K) * (i : K)) =
        (fun j : Nat => f (s + (e - s) / (N : K) * (j : K))) (N - i) := by
    intro i hi
    simp only [Finset.mem_Ico] at hi
    have hcast : ((N - i : Nat) : K) = (N : K) - (i : K) :=
      Nat.cast_sub (by omega)
    dsimp only
    rw [hcast]
    congr 1
    field_simp
    ring
  rw [Finset.sum_congr rfl hpt,
    sum_Ico_reflect_interior (fun j => f (s + (e - s) / (N : K) * (j : K))) N]
  ring

end CompMathLab3

namespace CompMathLab3

variable {K : Type} [LinearOrderedField K]

/-- The left rectangle rule on the reversed interval negates the right
rectangle rule. -/
theorem solve_rectanlge_left_reversed (s e : K) (N : Nat) (f : K → K)
    (hN : 1 ≤ N) :
    solve_rectanlge ⟨⟨e, s⟩, N⟩ RectangleMode.Left f =
      - solve_rectanlge ⟨⟨s, e⟩, N⟩ RectangleMode.Right f := by
  have hNK : (N : K) ≠ 0 := Nat.cast_ne_zero.mpr (by omega)
  simp only [solve_rectanlge, compute_step_length, FRange.len]
  have hterm : ∀ i ∈ Finset.range N,
      f (e + (s - e) / (N : K) * (i : K)) * ((s - e) / (N : K)) =
        (fun j : Nat =>
          -(f (s + (e - s) / (N : K) * (j : K) + (e - s) / (N : K)) *
            ((e - s) / (N : K)))) (N - 1 - i) := by
    intro i hi
    simp only [Finset.mem_range] at hi
    dsimp only
    have hcast : ((N - 1 - i : Nat) : K) = (N : K) - 1 - (i : K) := by
      rw [Nat.cast_sub (by omega), Nat.cast_sub (by omega), Nat.cast_one]
    rw [hcast]
    have harg : e + (s - e) / (N : K) * (i : K) =
        s + (e - s) / (N : K) * ((N : K) - 1 - (i : K)) + (e - s) / (N : K) := by
      field_simp
      ring
    rw [harg]
    ring
  rw [Finset.sum_congr rfl hterm, Finset.sum_neg_distrib]
  congr 1
  exact Finset.sum_range_reflect
    (fun j => f (s + (e - s) / (N : K) * (j : K) + (e - s) / (N : K)) *
      ((e - s) / (N : K))) N

/-- The right rectangle rule on the reversed interval negates the left
rectangle rule. -/
theorem solve_rectanlge_right_reversed (s e : K) (N : Nat) (f : K → K)
    (hN : 1 ≤ N) :
    solve_rectanlge ⟨⟨e, s⟩, N⟩ RectangleMode.Right f =
      - solve_rectanlge ⟨⟨s, e⟩, N⟩ RectangleMode.Left f := by
  have hNK : (N : K) ≠ 0 := Nat.cast_ne_zero.mpr (by omega)
  simp only [solve_rectanlge, compute_step_length, FRange.len]
  have hterm : ∀ i ∈ Finset.range N,
      f (e + (s - e) / (N : K) * (i : K) + (s - e) / (N : K)) *
          ((s - e) / (N : K)) =
        (fun j : Nat =>
          -(f (s + (e - s) / (N : K) * (j : K)) * ((e - s) / (N : K))))
          (N - 1 - i) := by
    intro i hi
    simp only [Finset.mem_range] at hi
    dsimp only
    have hcast : ((N - 1 - i : Nat) : K) = (N : K) - 1 - (i : K) := by
      rw [Nat.cast_sub (by omega), Nat.cast_sub (by omega), Nat.cast_one]
    rw [hcast]
    have harg : e + (s - e) / (N : K) * (i : K) + (s - e) / (N : K) =
        s + (e - s) / (N : K) * ((N : K) - 1 - (i : K)) := by
      field_simp
      ring
    rw [harg]
    ring
  rw [Finset.sum_congr rfl hterm, Finset.sum_neg_distrib]
  congr 1
  exact Finset.sum_range_reflect
    (fun j => f (s + (e - s) / (N : K) * (j : K)) * ((e - s) / (N : K))) N

/-- The center rectangle rule on the reversed interval negates. -/
theorem solve_rectanlge_center_reversed (s e : K) (N : Nat) (f : K → K)
    (hN : 1 ≤ N) :
    solve_rectanlge ⟨⟨e, s⟩, N⟩ RectangleMode.Center f =
      - solve_rectanlge ⟨⟨s, e⟩, N⟩ RectangleMode.Center f := by
  have hNK : (N : K) ≠ 0 := Nat.cast_ne_zero.mpr (by omega)
  simp only [solve_rectanlge, compute_step_length, FRange.len]
  have hterm : ∀ i ∈ Finset.range N,
      f (e + (s - e) / (N : K) * (i : K) + (s - e) / (N : K) / 2) *
          ((s - e) / (N : K)) =
        (fun j : Nat =>
          -(f (s + (e - s) / (N : K) * (j : K) + (e - s) / (N : K) / 2) *
            ((e - s) / (N : K)))) (N - 1 - i) := by
    intro i hi
    simp only [Finset.mem_range] at hi
    dsimp only
    have hcast : ((N - 1 - i : Nat) : K) = (N : K) - 1 - (i : K) := by
      rw [Nat.cast_sub (by omega), Nat.cast_sub (by omega), Nat.cast_one]
    rw [hcast]
    have harg : e + (s - e) / (N : K) * (i : K) + (s - e) / (N : K) / 2 =
        s + (e - s) / (N : K) * ((N : K) - 1 - (i : K)) +
          (e - s) / (N : K) / 2 := by
      field_simp
      ring
    rw [harg]
    ring
  rw [Finset.sum_congr rfl hterm, Finset.sum_neg_distrib]
  congr 1
  exact Finset.sum_range_reflect
    (fun j => f (s + (e - s) / (N : K) * (j : K) + (e - s) / (N : K) / 2) *
      ((e - s) / (N : K))) N

end CompMathLab3

namespace CompMathLab3

variable {K : Type} [LinearOrderedField K]

/-- The Simpson rule on the reversed interval negates (even splits). -/
theorem solve_simpthon_reversed (s e : K) (N : Nat) (f : K → K)
    (hN : 1 ≤ N) (hpar : N % 2 = 0) :
    solve_simpthon ⟨⟨e, s⟩, N⟩ f =
      Option.map (fun x => -x) (solve_simpthon ⟨⟨s, e⟩, N⟩ f) := by
  have hNK : (N : K) ≠ 0 := Nat.cast_ne_zero.mpr (by omega)
  simp only [solve_simpthon, compute_step_length, FRange.len]
  rw [if_neg (by omega), if_neg (by omega), Option.map_some']
  congr 1
  have hptO : ∀ i ∈ (Finset.Ico 1 N).filter (fun i => ¬ i % 2 = 0),
      f (e + (s - e) / (N : K) * (i : K)) =
        (fun j : Nat => f (s + (e - s) / (N : K) * (j : K))) (N - i) := by
    intro i hi
    simp only [Finset.mem_filter, Finset.mem_Ico] at hi
    dsimp only
    rw [Nat.cast_sub (by omega)]
    congr 1
    field_simp
    ring
  have hptE : ∀ i ∈ (Finset.Ico 1 N).filter (fun i => i % 2 = 0),
      f (e + (s - e) / (N : K) * (i : K)) =
        (fun j : Nat => f (s + (e - s) / (N : K) * (j : K))) (N - i) := by
    intro i hi
    simp only [Finset.mem_filter, Finset.mem_Ico] at hi
    dsimp only
    rw [Nat.cast_sub (by omega)]
    congr 1
    field_simp
    ring
  rw [Finset.sum_congr rfl hptO, Finset.sum_congr rfl hptE,
    sum_Ico_filter_odd_reflect (fun j => f (s + (e - s) / (N : K) * (j : K))) N hpar,
    sum_Ico_filter_even_reflect (fun j => f (s + (e - s) / (N : K) * (j : K))) N hpar]
  ring

/-- Claim C7: a reversed interval is handled consistently through the
signed step length.  The trapezoid rule, the Simpson rule (even splits) and
the center rectangle rule negate under reversal; the left rectangle rule on
the reversed interval negates the right rectangle rule on the original one,
and conversely. -/
theorem C7_reversed_interval_consistency (s e : K) (N : Nat) (f : K → K)
    (hN : 1 ≤ N) :
    solve_trapezoid ⟨⟨e, s⟩, N⟩ f = - solve_trapezoid ⟨⟨s, e⟩, N⟩ f ∧
    (N % 2 = 0 → solve_simpthon ⟨⟨e, s⟩, N⟩ f =
      Option.map (fun x => -x) (solve_simpthon ⟨⟨s, e⟩, N⟩ f)) ∧
    solve_rectanlge ⟨⟨e, s⟩, N⟩ RectangleMode.Center f =
      - solve_rectanlge ⟨⟨s, e⟩, N⟩ RectangleMode.Center f ∧
    solve_rectanlge ⟨⟨e, s⟩, N⟩ RectangleMode.Left f =
      - solve_rectanlge ⟨⟨s, e⟩, N⟩ RectangleMode.Right f ∧
    solve_rectanlge ⟨⟨e, s⟩, N⟩ RectangleMode.Right f =
      - solve_rectanlge ⟨⟨s, e⟩, N⟩ RectangleMode.Left f :=
  ⟨solve_trapezoid_reversed s e N f hN,
    fun hpar => solve_simpthon_reversed s e N f hN hpar,
    solve_rectanlge_center_reversed s e N f hN,
    solve_rectanlge_left_reversed s e N f hN,
    solve_rectanlge_right_reversed s e N f hN⟩

/-- Witness for C7 at a concrete input over the rationals. -/
theorem C7_witness :
    1 ≤ 2 ∧
    (solve_trapezoid (⟨⟨1, 0⟩, 2⟩ : Config ℚ) (fun x => x) =
        - solve_trapezoid (⟨⟨0, 1⟩, 2⟩ : Config ℚ) (fun x => x) ∧
      (2 % 2 = 0 → solve_simpthon (⟨⟨1, 0⟩, 2⟩ : Config ℚ) (fun x => x) =
        Option.map (fun x => -x) (solve_simpthon (⟨⟨0, 1⟩, 2⟩ : Config ℚ)
          (fun x => x))) ∧
      solve_rectanlge (⟨⟨1, 0⟩, 2⟩ : Config ℚ) RectangleMode.Center (fun x => x) =
        - solve_rectanlge (⟨⟨0, 1⟩, 2⟩ : Config ℚ) RectangleMode.Center
          (fun x => x) ∧
      solve_rectanlge (⟨⟨1, 0⟩, 2⟩ : Config ℚ) RectangleMode.Left (fun x => x) =
        - solve_rectanlge (⟨⟨0, 1⟩, 2⟩ : Config ℚ) RectangleMode.Right
          (fun x => x) ∧
      solve_rectanlge (⟨⟨1, 0⟩, 2⟩ : Config ℚ) RectangleMode.Right (fun x => x) =
        - solve_rectanlge (⟨⟨0, 1⟩, 2⟩ : Config ℚ) RectangleMode.Left
          (fun x => x)) :=
  ⟨by norm_num, C7_reversed_interval_consistency 0 1 2 (fun x => x) (by norm_num)⟩

end CompMathLab3
